import Mathlib

/-!
Verification of the cipher/padding layer and the lock/unlock path transition
of `lock_files.py`.

Shallow embedding conventions:
* Bytes are `Nat` values; byte strings are `List Nat`.  Where the source
  relies on values being actual bytes, theorems carry `< 256` hypotheses.
* The AES block permutation lives in the external `pycrypto` library, so it
  is a parameter (`BlockCipher`): a pair of keyed block maps.  Theorems that
  need its defining properties (inverse, 16-byte blocks, byte-valued output)
  take them as hypotheses.  CBC chaining, the blob layout and base64 are
  modelled concretely from the spec's wire format (sect. 6), because the
  source delegates them to `pycrypto` and the `base64` stdlib module.
* File-system state is an association list from paths to contents; paths
  are `List Nat`.  I/O failures of the operating system are an oracle in
  `Env`.  `sys.exit(1)` (from `err`) is `PFlow.exit`; an uncaught Python
  exception (the `IndexError` in `_unpad`) is `PFlow.crash`; both end the
  process with a non-zero status.
-/

/-- Byte strings: lists of natural numbers (each `< 256` for real bytes). -/
abbrev Bytes := List Nat

/-- File paths, modelled as abstract symbol lists. -/
abbrev FPath := List Nat

/-! ### Base64 (models `base64.b64encode` / `base64.b64decode`)

`b64decode` raising `binascii.Error` (a `ValueError` subclass) is modelled by
returning `none`.  Encoding follows RFC 4648 with standard alphabet. -/

/-- The base64 alphabet: sextet value to ASCII code. -/
def b64chr (i : Nat) : Nat :=
  if i < 26 then 65 + i
  else if i < 52 then 97 + (i - 26)
  else if i < 62 then 48 + (i - 52)
  else if i = 62 then 43
  else 47

/-- Inverse alphabet lookup: ASCII code to sextet value. -/
def b64idx (c : Nat) : Option Nat :=
  if 65 ≤ c ∧ c ≤ 90 then some (c - 65)
  else if 97 ≤ c ∧ c ≤ 122 then some (26 + (c - 97))
  else if 48 ≤ c ∧ c ≤ 57 then some (52 + (c - 48))
  else if c = 43 then some 62
  else if c = 47 then some 63
  else none

/-- `base64.b64encode`: 3-byte groups to 4 alphabet characters, `=`-padded. -/
def b64encode : Bytes → Bytes
  | [] => []
  | [a] => [b64chr (a / 4), b64chr (a % 4 * 16), 61, 61]
  | [a, b] => [b64chr (a / 4), b64chr (a % 4 * 16 + b / 16), b64chr (b % 16 * 4), 61]
  | a :: b :: c :: rest =>
      b64chr (a / 4) :: b64chr (a % 4 * 16 + b / 16) ::
      b64chr (b % 16 * 4 + c / 64) :: b64chr (c % 64) :: b64encode rest

/-- `base64.b64decode`: strict RFC 4648 decoding; `none` models the
`binascii.Error` (a `ValueError`) that the source's `except ValueError`
in `unlock_file` catches. -/
def b64decode : Bytes → Option Bytes
  | a :: b :: c :: d :: rest =>
    match b64idx a, b64idx b with
    | some x, some y =>
      if c = 61 ∧ d = 61 ∧ rest = [] then some [x * 4 + y / 16]
      else
        match b64idx c with
        | some z =>
          if d = 61 ∧ rest = [] then some [x * 4 + y / 16, y % 16 * 16 + z / 4]
          else
            match b64idx d with
            | some w =>
              (b64decode rest).map
                (fun t => (x * 4 + y / 16) :: (y % 16 * 16 + z / 4) :: (z % 4 * 64 + w) :: t)
            | none => none
        | none => none
    | _, _ => none
  | [] => some []
  | _ => none

/-! ### The cipher/padding layer (`AESCipher`)

`m_bs = 32`.  The `m_pad` table entry `i` holds `i` repetitions of byte `i`;
entry `0` is special-cased in `__init__` to 32·32 spaces, but `_pad` only ever
indexes it with `32 - len % 32 ∈ [1, 32]`, so the special entry is dead. -/

/-- The `m_pad` table from `AESCipher.__init__` (Python 3 branch), as a
function from index to the stored byte string. -/
def m_pad (i : Nat) : Bytes :=
  if i = 0 then List.replicate (32 * 32) 32 else List.replicate i i

/-- `AESCipher._pad`: append `m_pad[32 - len(s) % 32]`. -/
def aes_pad (s : Bytes) : Bytes :=
  s ++ m_pad (32 - s.length % 32)

/-- `AESCipher._unpad`: read the last byte `u` and return `s[:-u]`.
Python slicing makes `s[:-0]` the empty string, and `s[:-u]` empty whenever
`u ≥ len(s)`.  On empty input the source raises `IndexError` (`s[-1]`); the
caller (`aesDecryptRaw`) models that case explicitly before calling. -/
def aes_unpad (s : Bytes) : Bytes :=
  let u := s.getLastD 0
  if u = 0 then [] else s.take (s.length - u)

/-- The key stored by `AESCipher.__init__`: truncate to 32 bytes if the
password is long enough, otherwise extend it with `_pad` (the spec's
`normalize_key`). -/
def m_key (key : Bytes) : Bytes :=
  if 32 ≤ key.length then key.take 32 else aes_pad key

/-! ### CBC mode over an abstract block cipher -/

/-- The external block permutation (pycrypto's AES-256): a keyed block map
and its keyed inverse.  Its defining laws are hypotheses of the theorems
that need them. -/
structure BlockCipher where
  encB : Bytes → Bytes → Bytes
  decB : Bytes → Bytes → Bytes

/-- Pointwise xor of two byte strings (truncating to the shorter). -/
def zipXor (a b : Bytes) : Bytes := List.zipWith (fun x y => x ^^^ y) a b

/-- Split a byte string into 16-byte blocks (fuel-indexed helper). -/
def chunkAux : Nat → Bytes → List Bytes
  | 0, _ => []
  | _ + 1, [] => []
  | n + 1, x :: t => ((x :: t).take 16) :: chunkAux n ((x :: t).drop 16)

/-- Split a byte string into 16-byte blocks. -/
def chunk16 (s : Bytes) : List Bytes := chunkAux s.length s

/-- CBC encryption over a block list: each block is xored with the previous
ciphertext block (initially the IV) before the block cipher is applied. -/
def cbcEncBlocks (E : Bytes → Bytes → Bytes) (k iv : Bytes) : List Bytes → List Bytes
  | [] => []
  | b :: rest =>
      let c := E k (zipXor iv b)
      c :: cbcEncBlocks E k c rest

/-- CBC decryption over a block list. -/
def cbcDecBlocks (D : Bytes → Bytes → Bytes) (k iv : Bytes) : List Bytes → List Bytes
  | [] => []
  | b :: rest => zipXor iv (D k b) :: cbcDecBlocks D k b rest

/-- CBC encryption of a byte string whose length is a multiple of 16. -/
def cbcEnc (E : Bytes → Bytes → Bytes) (k iv s : Bytes) : Bytes :=
  (cbcEncBlocks E k iv (chunk16 s)).flatten

/-- CBC decryption of a byte string whose length is a multiple of 16. -/
def cbcDec (D : Bytes → Bytes → Bytes) (k iv s : Bytes) : Bytes :=
  (cbcDecBlocks D k iv (chunk16 s)).flatten

/-! ### encrypt / decrypt -/

/-- `AESCipher.encrypt` with the derived key: pad, prepend the IV, CBC, base64.
The IV that `Random.new().read(16)` supplies is a parameter. -/
def aesEncryptRaw (C : BlockCipher) (key iv raw : Bytes) : Bytes :=
  b64encode (iv ++ cbcEnc C.encB key iv (aes_pad raw))

/-- `AESCipher.encrypt` as invoked by `lock_file`: the password is first
normalized by `__init__`. -/
def aesEncrypt (C : BlockCipher) (password iv raw : Bytes) : Bytes :=
  aesEncryptRaw C (m_key password) iv raw

/-- Outcome of `AESCipher.decrypt`: success, a raised `ValueError`
(bad base64 / bad IV length / payload not a multiple of 16 — caught by
`unlock_file`), or the uncaught `IndexError` from `_unpad` on empty input. -/
inductive DecResult where
  | ok : Bytes → DecResult
  | valueError : DecResult
  | indexError : DecResult
deriving DecidableEq, Repr

/-- `AESCipher.decrypt` with the derived key: base64-decode, split the IV,
CBC-decrypt, unpad.  `AES.new` raises `ValueError` when the IV slice is
shorter than 16 bytes; `cipher.decrypt` raises `ValueError` when the payload
is not a multiple of 16; `_unpad` raises `IndexError` on an empty payload. -/
def aesDecryptRaw (C : BlockCipher) (key enc : Bytes) : DecResult :=
  match b64decode enc with
  | none => .valueError
  | some dec =>
    if dec.length < 16 then .valueError
    else if (dec.length - 16) % 16 ≠ 0 then .valueError
    else
      let pt := cbcDec C.decB key (dec.take 16) (dec.drop 16)
      if pt = [] then .indexError else .ok (aes_unpad pt)

/-- `AESCipher.decrypt` as invoked by `unlock_file`. -/
def aesDecrypt (C : BlockCipher) (password enc : Bytes) : DecResult :=
  aesDecryptRaw C (m_key password) enc

/-! ### PathTransition: file-system model, options, per-file processing

`opts` models the policy object after `getopts` normalization (`lock` and
`unlock` mutually exclusive, so a single Boolean).  `Env` is the oracle for
operating-system I/O failures and for the fresh IV each `encrypt` call draws
from `Random.new()`. -/

/-- Policy (`opts`): suffix, overwrite (`-o`), cont (`-c`), lock vs unlock. -/
structure Opts where
  suffix : FPath
  overwrite : Bool
  cont : Bool
  lock : Bool

/-- External-world oracle: which paths fail to read / write (`IOError`),
how a failing write fails, and the IV the entropy source produces for a
given source path.  When `writeErr` is set for a path, `writePartial`
distinguishes the two real failure points of `write_file`'s
`open(path, 'wb')` / `ofp.write(content)` pair: `none` means `open` itself
raised (destination untouched), `some n` means `open` succeeded — truncating
the destination — and `write` raised after `n` bytes, leaving a zero-length
or partially-written destination behind. -/
structure Env where
  readErr : FPath → Bool
  writeErr : FPath → Bool
  writePartial : FPath → Option Nat
  ivOf : FPath → Bytes

/-- The file system: an association list from paths to byte contents. -/
abbrev FS := List (FPath × Bytes)

/-- `open(path).read()`, as lookup: first binding of the path wins. -/
def fsRead (fs : FS) (p : FPath) : Option Bytes :=
  (fs.find? (fun e => e.1 == p)).map (fun e => e.2)

/-- `os.path.exists`. -/
def fsExists (fs : FS) (p : FPath) : Bool :=
  (fsRead fs p).isSome

/-- A file-system side effect: the write in `write_file`, or the
`os.remove` in `lock_file`/`unlock_file`. -/
inductive FsOp where
  | write : FPath → Bytes → FsOp
  | remove : FPath → FsOp
deriving DecidableEq, Repr

/-- Apply one side effect to the file system. -/
def applyOp (fs : FS) : FsOp → FS
  | .write p v => (p, v) :: fs.filter (fun e => !(e.1 == p))
  | .remove p => fs.filter (fun e => !(e.1 == p))

/-- Apply a trace of side effects in order. -/
def applyOps (fs : FS) (ops : List FsOp) : FS :=
  ops.foldl applyOp fs

/-- How a per-file operation leaves the process: normal return, `sys.exit(1)`
raised by `err` (non-zero status), or an uncaught Python exception
(also a non-zero status). -/
inductive PFlow where
  | ok : PFlow
  | exit : PFlow
  | crash : PFlow
deriving DecidableEq, Repr

/-- The kind of error reported through `get_cont_fct` (`err` or `warn`). -/
inductive RKind where
  | pathExists : RKind
  | readFail : RKind
  | writeFail : RKind
  | decFail : RKind
deriving DecidableEq, Repr

/-- The statistics dictionary from `run`. -/
structure Stats where
  locked : Nat
  unlocked : Nat
  skipped : Nat
  files : Nat
  read : Nat
  written : Nat
deriving DecidableEq, Repr

/-- `get_cont_fct(opts)(...)`: with `--cont` the report is a warning and
control returns to the caller; otherwise `err` exits the program. -/
def contFlow (opts : Opts) : PFlow :=
  if opts.cont then .ok else .exit

/-- `check_existence`: report when the destination exists and overwriting is
disabled.  Returns the reports issued and the resulting control flow — note
that in the `--cont` case control simply returns to the caller, which then
proceeds with the transformation. -/
def check_existence (opts : Opts) (fs : FS) (path : FPath) : List RKind × PFlow :=
  if !opts.overwrite && fsExists fs path then ([.pathExists], contFlow opts)
  else ([], .ok)

/-- Result of `read_file`. -/
structure ReadRes where
  data : Option Bytes
  stats : Stats
  reports : List RKind
  flow : PFlow
deriving DecidableEq, Repr

/-- `read_file`: return the contents and count the bytes, or report an
`IOError` (missing or unreadable path) and return `None`. -/
def read_file (opts : Opts) (env : Env) (path : FPath) (fs : FS) (stats : Stats) : ReadRes :=
  match fsRead fs path with
  | some data =>
    if env.readErr path then ⟨none, stats, [.readFail], contFlow opts⟩
    else ⟨some data, { stats with read := stats.read + data.length }, [], .ok⟩
  | none => ⟨none, stats, [.readFail], contFlow opts⟩

/-- Result of `write_file`, including the file-system side effects the call
itself performed (a failed write is not necessarily effect-free). -/
structure WriteRes where
  okW : Bool
  stats : Stats
  reports : List RKind
  ops : List FsOp
  flow : PFlow
deriving DecidableEq, Repr

/-- `write_file`: write the content and count the bytes, or report an
`IOError` and return `False`.  The source opens with mode `'wb'`, which
truncates or creates the destination *before* the write can fail: when
`open` succeeds but `ofp.write` raises (e.g. disk full), the destination is
left holding the prefix that made it to disk (possibly zero bytes).  Only a
failure of `open` itself leaves the file system untouched.  The byte counter
is bumped after the write, so a failed write counts nothing. -/
def write_file (opts : Opts) (env : Env) (path : FPath) (content : Bytes) (stats : Stats) :
    WriteRes :=
  if env.writeErr path then
    match env.writePartial path with
    | none => ⟨false, stats, [.writeFail], [], contFlow opts⟩
    | some n => ⟨false, stats, [.writeFail], [.write path (content.take n)], contFlow opts⟩
  else ⟨true, { stats with written := stats.written + content.length },
    [], [.write path content], .ok⟩

/-- Result of one per-file operation: the file-system side effects it
performed in order, the reports it issued, the statistics, and the flow. -/
structure PFRes where
  ops : List FsOp
  reports : List RKind
  stats : Stats
  flow : PFlow
deriving DecidableEq, Repr

/-- `lock_file`: destination is `path + suffix`; check existence, read,
encrypt, write; on a confirmed write remove the source when the two paths
differ and bump the `locked` counter. -/
def lock_file (C : BlockCipher) (opts : Opts) (env : Env) (password : Bytes)
    (path : FPath) (fs : FS) (stats : Stats) : PFRes :=
  let out := path ++ opts.suffix
  let ce := check_existence opts fs out
  if ce.2 = .exit then ⟨[], ce.1, stats, .exit⟩
  else
    let rr := read_file opts env path fs stats
    match rr.data with
    | some content =>
      let data := aesEncrypt C password (env.ivOf path) content
      let wr := write_file opts env out data rr.stats
      if wr.okW then
        ⟨wr.ops ++ (if out = path then [] else [.remove path]),
         ce.1 ++ rr.reports,
         { wr.stats with locked := wr.stats.locked + 1 }, .ok⟩
      else ⟨wr.ops, ce.1 ++ rr.reports ++ wr.reports, wr.stats, wr.flow⟩
    | none => ⟨[], ce.1 ++ rr.reports, rr.stats, rr.flow⟩

/-- The destination `unlock_file` computes for an eligible path: strip the
suffix, or keep the path when the suffix is empty. -/
def unlockDest (opts : Opts) (path : FPath) : FPath :=
  if 0 < opts.suffix.length then path.take (path.length - opts.suffix.length) else path

/-- `unlock_file`: only paths ending in the suffix are eligible (an empty
suffix makes every path eligible); ineligible paths are counted as skipped.
Check existence of the stripped destination, read, decrypt, write; on a
confirmed write remove the source when the paths differ.  A `ValueError`
from `decrypt` is reported through `get_cont_fct`; the `IndexError` from
`_unpad` is not caught and crashes the process. -/
def unlock_file (C : BlockCipher) (opts : Opts) (env : Env) (password : Bytes)
    (path : FPath) (fs : FS) (stats : Stats) : PFRes :=
  if opts.suffix.isSuffixOf path then
    let out := unlockDest opts path
    let ce := check_existence opts fs out
    if ce.2 = .exit then ⟨[], ce.1, stats, .exit⟩
    else
      let rr := read_file opts env path fs stats
      match rr.data with
      | some content =>
        match aesDecrypt C password content with
        | .ok data =>
          let wr := write_file opts env out data rr.stats
          if wr.okW then
            ⟨wr.ops ++ (if out = path then [] else [.remove path]),
             ce.1 ++ rr.reports,
             { wr.stats with unlocked := wr.stats.unlocked + 1 }, .ok⟩
          else ⟨wr.ops, ce.1 ++ rr.reports ++ wr.reports, wr.stats, wr.flow⟩
        | .valueError => ⟨[], ce.1 ++ rr.reports ++ [.decFail], rr.stats, contFlow opts⟩
        | .indexError => ⟨[], ce.1 ++ rr.reports, rr.stats, .crash⟩
      | none => ⟨[], ce.1 ++ rr.reports, rr.stats, rr.flow⟩
  else ⟨[], [], { stats with skipped := stats.skipped + 1 }, .ok⟩

/-- `process_file`: count the file and dispatch on the mode. -/
def process_file (C : BlockCipher) (opts : Opts) (env : Env) (password : Bytes)
    (path : FPath) (fs : FS) (stats : Stats) : PFRes :=
  let stats := { stats with files := stats.files + 1 }
  if opts.lock then lock_file C opts env password path fs stats
  else unlock_file C opts env password path fs stats

/-- The per-file loop of `run`, restricted (as the spec's core is) to plain
file entries: process each path in order, applying its side effects; an
`err` exit or an uncaught exception stops the loop at once. -/
def runFiles (C : BlockCipher) (opts : Opts) (env : Env) (password : Bytes) :
    List FPath → FS → Stats → FS × Stats × PFlow
  | [], fs, stats => (fs, stats, .ok)
  | p :: rest, fs, stats =>
    let r := process_file C opts env password p fs stats
    match r.flow with
    | .ok => runFiles C opts env password rest (applyOps fs r.ops) r.stats
    | f => (applyOps fs r.ops, r.stats, f)

/-! ### Lemmas: base64 -/

/-- The alphabet maps are mutually inverse on sextet values. -/
theorem b64idx_b64chr : ∀ i, i < 64 → b64idx (b64chr i) = some i := by decide

/-- The pad character `=` (61) is not in the alphabet's range. -/
theorem b64chr_ne_61 (i : Nat) : b64chr i ≠ 61 := by
  unfold b64chr
  split <;> try omega
  split <;> try omega
  split <;> try omega
  split <;> omega

/-- Decoding inverts encoding on byte-valued input. -/
theorem b64decode_encode : ∀ s : Bytes, (∀ x ∈ s, x < 256) →
    b64decode (b64encode s) = some s := by
  intro s
  induction s using b64encode.induct with
  | case1 => intro _; rfl
  | case2 a =>
    intro h
    have ha : a < 256 := h a (by simp)
    simp only [b64encode, b64decode]
    rw [b64idx_b64chr _ (by omega), b64idx_b64chr _ (by omega)]
    simp
    omega
  | case3 a b =>
    intro h
    have ha : a < 256 := h a (by simp)
    have hb : b < 256 := h b (by simp)
    simp only [b64encode, b64decode]
    rw [b64idx_b64chr _ (by omega), b64idx_b64chr _ (by omega), b64idx_b64chr _ (by omega)]
    simp [b64chr_ne_61]
    omega
  | case4 a b c rest ih =>
    intro h
    have ha : a < 256 := h a (by simp)
    have hb : b < 256 := h b (by simp)
    have hc : c < 256 := h c (by simp)
    have hrest := ih (fun x hx => h x (by simp [hx]))
    simp only [b64encode, b64decode]
    rw [b64idx_b64chr _ (by omega), b64idx_b64chr _ (by omega), b64idx_b64chr _ (by omega),
        b64idx_b64chr _ (by omega)]
    simp [b64chr_ne_61, hrest]
    omega

/-! ### Lemmas: xor and block chunking -/

theorem zipXor_length (a b : Bytes) : (zipXor a b).length = min a.length b.length := by
  simp [zipXor]

/-- Xoring twice with the same string cancels. -/
theorem zipXor_cancel : ∀ a b : Bytes, b.length ≤ a.length → zipXor a (zipXor a b) = b := by
  intro a
  induction a with
  | nil => intro b h; simp at h; simp [h, zipXor]
  | cons x t ih =>
    intro b h
    cases b with
    | nil => simp [zipXor]
    | cons y u =>
      simp [zipXor] at *
      exact ⟨Nat.xor_cancel_left x y, ih u (by omega)⟩

/-- Xor of byte-valued strings is byte-valued. -/
theorem zipXor_bytes : ∀ a b : Bytes, (∀ x ∈ a, x < 256) → (∀ x ∈ b, x < 256) →
    ∀ z ∈ zipXor a b, z < 256 := by
  intro a
  induction a with
  | nil => intro b _ _ z hz; simp [zipXor] at hz
  | cons x t ih =>
    intro b ha hb z hz
    cases b with
    | nil => simp [zipXor] at hz
    | cons y u =>
      simp [zipXor] at hz
      rcases hz with h | h
      · subst h
        have : (256 : Nat) = 2 ^ 8 := by norm_num
        rw [this]
        exact Nat.xor_lt_two_pow (by have := ha x (by simp); omega)
          (by have := hb y (by simp); omega)
      · exact ih u (fun w hw => ha w (by simp [hw])) (fun w hw => hb w (by simp [hw])) z h

/-- The chunking helper ignores its fuel as long as there is enough of it. -/
theorem chunkAux_congr : ∀ n m s, s.length ≤ n → s.length ≤ m → chunkAux n s = chunkAux m s := by
  intro n
  induction n with
  | zero =>
    intro m s hn _
    have : s = [] := by cases s <;> simp_all
    subst this
    cases m <;> simp [chunkAux]
  | succ n ih =>
    intro m s hn hm
    cases s with
    | nil => cases m <;> simp [chunkAux]
    | cons x t =>
      simp only [List.length_cons] at hn hm
      cases m with
      | zero => omega
      | succ m =>
        simp only [chunkAux]
        congr 1
        exact ih m _ (by simp [List.length_drop]; omega) (by simp [List.length_drop]; omega)

theorem flatten_chunkAux : ∀ n s, s.length ≤ n → (chunkAux n s).flatten = s := by
  intro n
  induction n with
  | zero =>
    intro s hn
    have : s = [] := by cases s <;> simp_all
    simp [this, chunkAux]
  | succ n ih =>
    intro s hn
    cases s with
    | nil => simp [chunkAux]
    | cons x t =>
      simp only [List.length_cons] at hn
      simp only [chunkAux, List.flatten_cons]
      rw [ih _ (by simp [List.length_drop]; omega)]
      exact List.take_append_drop 16 (x :: t)

/-- Re-flattening the 16-byte chunks recovers the string. -/
theorem flatten_chunk16 (s : Bytes) : (chunk16 s).flatten = s :=
  flatten_chunkAux s.length s (Nat.le_refl _)

/-- Chunking peels off a leading 16-byte block. -/
theorem chunk16_cons16 (b s : Bytes) (hb : b.length = 16) :
    chunk16 (b ++ s) = b :: chunk16 s := by
  cases b with
  | nil => simp at hb
  | cons x t =>
    show chunkAux ((x :: t ++ s).length) (x :: t ++ s) = _
    have hlen : (x :: t ++ s).length = (15 + s.length) + 1 := by
      simp at hb ⊢
      omega
    rw [hlen]
    simp only [chunkAux]
    have h1 : List.take 16 (x :: (t ++ s)) = x :: t := by
      rw [← List.cons_append, show (16 : Nat) = (x :: t).length from hb.symm]
      exact List.take_left (x :: t) s
    have h2 : List.drop 16 (x :: (t ++ s)) = s := by
      rw [← List.cons_append, show (16 : Nat) = (x :: t).length from hb.symm]
      exact List.drop_left (x :: t) s
    simp only [List.append_eq]
    rw [h1, h2]
    congr 1
    exact chunkAux_congr _ _ _ (by omega) (Nat.le_refl _)

/-- Chunking a flat list of 16-byte blocks recovers the block list. -/
theorem chunk16_flatten_blocks : ∀ bs : List Bytes, (∀ b ∈ bs, b.length = 16) →
    chunk16 bs.flatten = bs := by
  intro bs
  induction bs with
  | nil => intro _; rfl
  | cons b rest ih =>
    intro h
    rw [List.flatten_cons, chunk16_cons16 b rest.flatten (h b (by simp))]
    rw [ih (fun x hx => h x (by simp [hx]))]

/-! ### Lemmas: CBC over an inverse pair of block maps -/

theorem chunkAux_block_len : ∀ n s, s.length % 16 = 0 → ∀ b ∈ chunkAux n s, b.length = 16 := by
  intro n
  induction n with
  | zero => intro s _ b hb; simp [chunkAux] at hb
  | succ n ih =>
    intro s hs b hb
    cases s with
    | nil => simp [chunkAux] at hb
    | cons x t =>
      simp only [chunkAux, List.mem_cons] at hb
      rcases hb with h | h
      · subst h
        simp only [List.length_take, List.length_cons]
        simp only [List.length_cons] at hs
        omega
      · exact ih _ (by simp only [List.length_drop, List.length_cons] at hs ⊢; omega) b h

theorem chunk16_block_len (s : Bytes) (hs : s.length % 16 = 0) :
    ∀ b ∈ chunk16 s, b.length = 16 :=
  chunkAux_block_len s.length s hs

theorem chunk16_block_bytes (s : Bytes) (hs : ∀ x ∈ s, x < 256) :
    ∀ b ∈ chunk16 s, ∀ x ∈ b, x < 256 := by
  intro b hb x hx
  apply hs
  rw [← flatten_chunk16 s]
  exact List.mem_flatten.mpr ⟨b, hb, hx⟩

theorem cbcEncBlocks_block_len (E : Bytes → Bytes → Bytes)
    (hLen : ∀ k b, b.length = 16 → (E k b).length = 16) :
    ∀ (bs : List Bytes) (k iv : Bytes), iv.length = 16 → (∀ b ∈ bs, b.length = 16) →
    ∀ c ∈ cbcEncBlocks E k iv bs, c.length = 16 := by
  intro bs
  induction bs with
  | nil => intro k iv _ _ c hc; simp [cbcEncBlocks] at hc
  | cons b rest ih =>
    intro k iv hiv hbs c hc
    simp only [cbcEncBlocks, List.mem_cons] at hc
    have hcb : (E k (zipXor iv b)).length = 16 := by
      apply hLen
      rw [zipXor_length, hiv, hbs b (by simp)]
      simp
    rcases hc with h | h
    · subst h; exact hcb
    · exact ih k _ hcb (fun x hx => hbs x (by simp [hx])) c h

theorem cbcEncBlocks_bytes (E : Bytes → Bytes → Bytes)
    (hBytes : ∀ k b x, x ∈ E k b → x < 256) :
    ∀ (bs : List Bytes) (k iv : Bytes), ∀ c ∈ cbcEncBlocks E k iv bs, ∀ x ∈ c, x < 256 := by
  intro bs
  induction bs with
  | nil => intro k iv c hc; simp [cbcEncBlocks] at hc
  | cons b rest ih =>
    intro k iv c hc
    simp only [cbcEncBlocks, List.mem_cons] at hc
    rcases hc with h | h
    · subst h; exact fun x hx => hBytes k _ x hx
    · exact ih k _ c h

theorem cbcDecBlocks_encBlocks (C : BlockCipher)
    (hInv : ∀ k b, b.length = 16 → (∀ x ∈ b, x < 256) → C.decB k (C.encB k b) = b)
    (hLen : ∀ k b, b.length = 16 → (C.encB k b).length = 16)
    (hBytes : ∀ k b x, x ∈ C.encB k b → x < 256) :
    ∀ (bs : List Bytes) (k iv : Bytes), iv.length = 16 → (∀ x ∈ iv, x < 256) →
    (∀ b ∈ bs, b.length = 16 ∧ ∀ x ∈ b, x < 256) →
    cbcDecBlocks C.decB k iv (cbcEncBlocks C.encB k iv bs) = bs := by
  intro bs
  induction bs with
  | nil => intro k iv _ _ _; rfl
  | cons b rest ih =>
    intro k iv hiv hivb hbs
    obtain ⟨hb16, hbb⟩ := hbs b (by simp)
    have hxz : (zipXor iv b).length = 16 := by rw [zipXor_length, hiv, hb16]; simp
    have hxzb : ∀ x ∈ zipXor iv b, x < 256 := zipXor_bytes iv b hivb hbb
    simp only [cbcEncBlocks, cbcDecBlocks]
    rw [hInv k _ hxz hxzb, zipXor_cancel iv b (by omega)]
    congr 1
    exact ih k _ (hLen k _ hxz) (fun x hx => hBytes k _ x hx)
      (fun x hx => hbs x (by simp [hx]))

/-! ### Lemmas: padding -/

theorem aes_pad_eq (s : Bytes) :
    aes_pad s = s ++ List.replicate (32 - s.length % 32) (32 - s.length % 32) := by
  have h : 32 - s.length % 32 ≠ 0 := by omega
  simp [aes_pad, m_pad, h]

theorem aes_pad_length (s : Bytes) :
    (aes_pad s).length = s.length + (32 - s.length % 32) := by
  rw [aes_pad_eq]
  simp

theorem aes_pad_length_mod (s : Bytes) : (aes_pad s).length % 16 = 0 := by
  rw [aes_pad_length]
  omega

theorem aes_pad_ne_nil (s : Bytes) : aes_pad s ≠ [] := by
  rw [aes_pad_eq]
  intro h
  have := congrArg List.length h
  simp at this
  omega

theorem aes_pad_bytes (s : Bytes) (hs : ∀ x ∈ s, x < 256) : ∀ x ∈ aes_pad s, x < 256 := by
  rw [aes_pad_eq]
  intro x hx
  rcases List.mem_append.mp hx with h | h
  · exact hs x h
  · have := List.eq_of_mem_replicate h
    omega

theorem aes_unpad_pad (s : Bytes) : aes_unpad (aes_pad s) = s := by
  rw [aes_pad_eq]
  set p := 32 - s.length % 32 with hp
  have hp1 : 1 ≤ p := by omega
  have hrep : List.replicate p p = List.replicate (p - 1) p ++ [p] := by
    rw [← List.replicate_succ']
    congr 1
    omega
  have hlast : (s ++ List.replicate p p).getLastD 0 = p := by
    rw [hrep, ← List.append_assoc]
    simp [List.getLastD_eq_getLast?, List.getLast?_concat]
  simp only [aes_unpad, hlast]
  rw [if_neg (by omega)]
  have hlen : (s ++ List.replicate p p).length = s.length + p := by simp
  rw [hlen]
  have : s.length + p - p = s.length := by omega
  rw [this, List.take_left' rfl]

/-! ### The encrypt-decrypt round trip -/

theorem flatten_length_16 : ∀ l : List Bytes, (∀ b ∈ l, b.length = 16) →
    l.flatten.length = 16 * l.length := by
  intro l
  induction l with
  | nil => intro _; simp
  | cons b rest ih =>
    intro h
    simp only [List.flatten_cons, List.length_append, List.length_cons]
    rw [h b (by simp), ih (fun x hx => h x (by simp [hx]))]
    ring

theorem cbcEncBlocks_length (E : Bytes → Bytes → Bytes) :
    ∀ (bs : List Bytes) (k iv : Bytes), (cbcEncBlocks E k iv bs).length = bs.length := by
  intro bs
  induction bs with
  | nil => intro k iv; rfl
  | cons b rest ih => intro k iv; simp [cbcEncBlocks, ih]

theorem decrypt_encrypt_roundtrip (C : BlockCipher)
    (hInv : ∀ k b, b.length = 16 → (∀ x ∈ b, x < 256) → C.decB k (C.encB k b) = b)
    (hLen : ∀ k b, b.length = 16 → (C.encB k b).length = 16)
    (hBytes : ∀ k b x, x ∈ C.encB k b → x < 256)
    (key iv p : Bytes) (hiv : iv.length = 16) (hivb : ∀ x ∈ iv, x < 256)
    (hp : ∀ x ∈ p, x < 256) :
    aesDecryptRaw C key (aesEncryptRaw C key iv p) = .ok p := by
  have hblk_len : ∀ b ∈ chunk16 (aes_pad p), b.length = 16 :=
    chunk16_block_len _ (aes_pad_length_mod p)
  have hblk_bytes : ∀ b ∈ chunk16 (aes_pad p), ∀ x ∈ b, x < 256 :=
    chunk16_block_bytes _ (aes_pad_bytes p hp)
  have henc_len : ∀ c ∈ cbcEncBlocks C.encB key iv (chunk16 (aes_pad p)), c.length = 16 :=
    cbcEncBlocks_block_len C.encB hLen _ key iv hiv hblk_len
  set ct := cbcEnc C.encB key iv (aes_pad p) with hct
  have hct_bytes : ∀ x ∈ ct, x < 256 := by
    intro x hx
    rw [hct] at hx
    obtain ⟨c, hc, hxc⟩ := List.mem_flatten.mp hx
    exact cbcEncBlocks_bytes C.encB (fun k b x hx => hBytes k b x hx) _ key iv c hc x hxc
  have hblocks_ne : chunk16 (aes_pad p) ≠ [] := by
    intro h
    have := flatten_chunk16 (aes_pad p)
    rw [h] at this
    exact aes_pad_ne_nil p this.symm
  have hct_len : ct.length = 16 * (chunk16 (aes_pad p)).length := by
    rw [hct]
    unfold cbcEnc
    rw [flatten_length_16 _ henc_len, cbcEncBlocks_length]
  have hct_pos : 0 < ct.length := by
    rw [hct_len]
    cases h : chunk16 (aes_pad p) with
    | nil => exact absurd h hblocks_ne
    | cons a l => simp [h]
  have hbytes_all : ∀ x ∈ iv ++ ct, x < 256 := by
    intro x hx
    rcases List.mem_append.mp hx with h | h
    · exact hivb x h
    · exact hct_bytes x h
  unfold aesEncryptRaw aesDecryptRaw
  rw [← hct, b64decode_encode _ hbytes_all]
  have hlen_app : (iv ++ ct).length = 16 + ct.length := by simp [hiv]
  dsimp only
  rw [if_neg (by rw [hlen_app]; omega), if_neg (by rw [hlen_app]; omega)]
  rw [List.take_left' hiv, List.drop_left' hiv]
  have hchunk_ct : chunk16 ct = cbcEncBlocks C.encB key iv (chunk16 (aes_pad p)) := by
    rw [hct]
    unfold cbcEnc
    exact chunk16_flatten_blocks _ henc_len
  have hdec : cbcDec C.decB key iv ct = aes_pad p := by
    unfold cbcDec
    rw [hchunk_ct, cbcDecBlocks_encBlocks C hInv hLen hBytes _ key iv hiv hivb
      (fun b hb => ⟨hblk_len b hb, hblk_bytes b hb⟩), flatten_chunk16]
  rw [hdec, if_neg (aes_pad_ne_nil p), aes_unpad_pad]

/-! ### A concrete invertible block map for witnesses: byte-wise shift by a
key-dependent amount (a stand-in instance of the abstract block cipher) -/

def shiftE (k b : Bytes) : Bytes := b.map (fun x => (x + k.headD 0 + 1) % 256)

def shiftD (k b : Bytes) : Bytes := b.map (fun x => (x + 256 - (k.headD 0 + 1) % 256) % 256)

def shiftC : BlockCipher := ⟨shiftE, shiftD⟩

theorem shiftE_length (k b : Bytes) : (shiftE k b).length = b.length := by simp [shiftE]

theorem shiftD_length (k b : Bytes) : (shiftD k b).length = b.length := by simp [shiftD]

theorem shiftD_shiftE (k : Bytes) : ∀ b : Bytes, (∀ x ∈ b, x < 256) →
    shiftD k (shiftE k b) = b := by
  intro b
  induction b with
  | nil => intro _; rfl
  | cons x t ih =>
    intro h
    have hx : x < 256 := h x (by simp)
    simp only [shiftE, shiftD, List.map_cons, List.cons.injEq] at *
    constructor
    · omega
    · exact ih (fun w hw => h w (by simp [hw]))

theorem shiftE_bytes (k b : Bytes) : ∀ x ∈ shiftE k b, x < 256 := by
  intro x hx
  simp [shiftE] at hx
  obtain ⟨y, _, hy⟩ := hx
  omega

def noErrEnv : Env := ⟨fun _ => false, fun _ => false, fun _ => none, fun _ => List.replicate 16 0⟩

def stats0 : Stats := ⟨0, 0, 0, 0, 0, 0⟩

/-! ### Lemmas: exact failure conditions of decrypt -/

theorem chunk16_ne_nil (s : Bytes) (hs : s ≠ []) : chunk16 s ≠ [] := by
  intro h
  have := flatten_chunk16 s
  rw [h] at this
  exact hs this.symm

theorem cbcDec_ne_nil (C : BlockCipher)
    (hDlen : ∀ k b, b.length = 16 → (C.decB k b).length = 16)
    (key iv ct : Bytes) (hiv : iv.length = 16) (hct : ct ≠ [])
    (hmod : ct.length % 16 = 0) : cbcDec C.decB key iv ct ≠ [] := by
  cases h : chunk16 ct with
  | nil => exact absurd h (chunk16_ne_nil ct hct)
  | cons b bs =>
    have hb16 : b.length = 16 := chunk16_block_len ct hmod b (by rw [h]; simp)
    have hhead : (zipXor iv (C.decB key b)).length = 16 := by
      rw [zipXor_length, hiv, hDlen key b hb16]
      simp
    unfold cbcDec
    rw [h]
    simp only [cbcDecBlocks, List.flatten_cons]
    intro habs
    rw [List.append_eq_nil] at habs
    have := congrArg List.length habs.1
    rw [hhead] at this
    simp at this

theorem decrypt_ok_of_structure (C : BlockCipher) (key enc dec : Bytes)
    (hDlen : ∀ k b, b.length = 16 → (C.decB k b).length = 16)
    (hb : b64decode enc = some dec) (h16 : 16 < dec.length)
    (hmod : (dec.length - 16) % 16 = 0) :
    aesDecryptRaw C key enc =
      .ok (aes_unpad (cbcDec C.decB key (dec.take 16) (dec.drop 16))) := by
  unfold aesDecryptRaw
  rw [hb]
  dsimp only
  rw [if_neg (by omega), if_neg (by omega)]
  rw [if_neg (cbcDec_ne_nil C hDlen key _ _ (by simp [List.length_take]; omega)
    (by intro h; have := congrArg List.length h; simp [List.length_drop] at this; omega)
    (by simp [List.length_drop]; omega))]

theorem decrypt_valueError_iff (C : BlockCipher) (key enc : Bytes) :
    aesDecryptRaw C key enc = .valueError ↔
      b64decode enc = none ∨ ∃ dec, b64decode enc = some dec ∧
        (dec.length < 16 ∨ (dec.length - 16) % 16 ≠ 0) := by
  cases hb : b64decode enc with
  | none => simp [aesDecryptRaw, hb]
  | some dec =>
    unfold aesDecryptRaw
    rw [hb]
    dsimp only
    by_cases h1 : dec.length < 16
    · simp [h1, hb]
    · rw [if_neg h1]
      by_cases h2 : (dec.length - 16) % 16 ≠ 0
      · simp [h2, hb, h1]
      · rw [if_neg h2]
        constructor
        · intro h
          split at h <;> simp_all
        · intro h
          rcases h with h | ⟨dec', hdec', hcond⟩
          · simp_all
          · injection hdec' with hdd
            subst hdd
            exfalso
            omega

theorem decrypt_indexError_iff (C : BlockCipher) (key enc : Bytes)
    (hDlen : ∀ k b, b.length = 16 → (C.decB k b).length = 16) :
    aesDecryptRaw C key enc = .indexError ↔
      ∃ dec, b64decode enc = some dec ∧ dec.length = 16 := by
  cases hb : b64decode enc with
  | none => simp [aesDecryptRaw, hb]
  | some dec =>
    unfold aesDecryptRaw
    rw [hb]
    dsimp only
    by_cases h1 : dec.length < 16
    · simp [h1, hb]
      omega
    · rw [if_neg h1]
      by_cases h2 : (dec.length - 16) % 16 ≠ 0
      · rw [if_pos h2]
        simp [hb]
        intro h
        omega
      · rw [if_neg h2]
        by_cases h3 : dec.length = 16
        · have hdrop : List.drop 16 dec = [] := by
            apply List.eq_nil_of_length_eq_zero
            simp [List.length_drop, h3]
          rw [hdrop]
          have : cbcDec C.decB key (List.take 16 dec) [] = [] := rfl
          rw [this, if_pos rfl]
          simp [hb, h3]
        · have hne : cbcDec C.decB key (List.take 16 dec) (List.drop 16 dec) ≠ [] :=
            cbcDec_ne_nil C hDlen key _ _ (by simp [List.length_take]; omega)
              (by intro h; have := congrArg List.length h
                  simp [List.length_drop] at this; omega)
              (by simp [List.length_drop]; omega)
          rw [if_neg hne]
          simp [hb]
          omega

/-! ### Lemmas: branch behaviour of the per-file operations -/

theorem lock_file_exit (C : BlockCipher) (opts : Opts) (env : Env) (pw : Bytes)
    (path : FPath) (fs : FS) (st : Stats)
    (hov : opts.overwrite = false) (hex : fsExists fs (path ++ opts.suffix) = true)
    (hcont : opts.cont = false) :
    lock_file C opts env pw path fs st = ⟨[], [.pathExists], st, .exit⟩ := by
  unfold lock_file check_existence contFlow
  simp [hov, hex, hcont]

theorem lock_file_success (C : BlockCipher) (opts : Opts) (env : Env) (pw : Bytes)
    (path : FPath) (fs : FS) (st : Stats) (content : Bytes)
    (hnoexit : opts.overwrite = false → fsExists fs (path ++ opts.suffix) = true →
      opts.cont = true)
    (hread : fsRead fs path = some content) (hre : env.readErr path = false)
    (hwe : env.writeErr (path ++ opts.suffix) = false) :
    (lock_file C opts env pw path fs st).ops =
      FsOp.write (path ++ opts.suffix) (aesEncrypt C pw (env.ivOf path) content) ::
        (if path ++ opts.suffix = path then [] else [FsOp.remove path])
    ∧ (lock_file C opts env pw path fs st).flow = .ok
    ∧ (lock_file C opts env pw path fs st).reports =
        (if !opts.overwrite && fsExists fs (path ++ opts.suffix) then [RKind.pathExists]
         else []) := by
  by_cases hc : (!opts.overwrite && fsExists fs (path ++ opts.suffix)) = true
  · have hcont : opts.cont = true := by
      have := hnoexit (by simpa using (Bool.and_elim_left hc))
        (by simpa using (Bool.and_elim_right hc))
      exact this
    unfold lock_file check_existence contFlow read_file write_file
    simp [hc, hcont, hread, hre, hwe]
  · unfold lock_file check_existence contFlow read_file write_file
    simp [hc, hread, hre, hwe]

theorem unlock_file_exit (C : BlockCipher) (opts : Opts) (env : Env) (pw : Bytes)
    (path : FPath) (fs : FS) (st : Stats)
    (helig : opts.suffix.isSuffixOf path = true)
    (hov : opts.overwrite = false) (hex : fsExists fs (unlockDest opts path) = true)
    (hcont : opts.cont = false) :
    unlock_file C opts env pw path fs st = ⟨[], [.pathExists], st, .exit⟩ := by
  unfold unlock_file check_existence contFlow
  simp [helig, hov, hex, hcont]

theorem unlock_file_success (C : BlockCipher) (opts : Opts) (env : Env) (pw : Bytes)
    (path : FPath) (fs : FS) (st : Stats) (content data : Bytes)
    (helig : opts.suffix.isSuffixOf path = true)
    (hnoexit : opts.overwrite = false → fsExists fs (unlockDest opts path) = true →
      opts.cont = true)
    (hread : fsRead fs path = some content) (hre : env.readErr path = false)
    (hdec : aesDecrypt C pw content = .ok data)
    (hwe : env.writeErr (unlockDest opts path) = false) :
    (unlock_file C opts env pw path fs st).ops =
      FsOp.write (unlockDest opts path) data ::
        (if unlockDest opts path = path then [] else [FsOp.remove path])
    ∧ (unlock_file C opts env pw path fs st).flow = .ok
    ∧ (unlock_file C opts env pw path fs st).reports =
        (if !opts.overwrite && fsExists fs (unlockDest opts path) then [RKind.pathExists]
         else []) := by
  by_cases hc : (!opts.overwrite && fsExists fs (unlockDest opts path)) = true
  · have hcont : opts.cont = true :=
      hnoexit (by simpa using (Bool.and_elim_left hc))
        (by simpa using (Bool.and_elim_right hc))
    unfold unlock_file check_existence contFlow read_file write_file
    simp [helig, hc, hcont, hread, hre, hwe, hdec]
  · unfold unlock_file check_existence contFlow read_file write_file
    simp [helig, hc, hread, hre, hwe, hdec]

theorem unlock_file_decErr (C : BlockCipher) (opts : Opts) (env : Env) (pw : Bytes)
    (path : FPath) (fs : FS) (st : Stats) (content : Bytes)
    (helig : opts.suffix.isSuffixOf path = true)
    (hnoexit : opts.overwrite = false → fsExists fs (unlockDest opts path) = true →
      opts.cont = true)
    (hread : fsRead fs path = some content) (hre : env.readErr path = false)
    (hdec : aesDecrypt C pw content = .valueError) :
    (unlock_file C opts env pw path fs st).ops = []
    ∧ (unlock_file C opts env pw path fs st).flow = contFlow opts
    ∧ RKind.decFail ∈ (unlock_file C opts env pw path fs st).reports := by
  by_cases hc : (!opts.overwrite && fsExists fs (unlockDest opts path)) = true
  · have hcont : opts.cont = true :=
      hnoexit (by simpa using (Bool.and_elim_left hc))
        (by simpa using (Bool.and_elim_right hc))
    unfold unlock_file check_existence contFlow read_file
    simp [helig, hc, hcont, hread, hre, hdec]
  · unfold unlock_file check_existence contFlow read_file
    simp [helig, hc, hread, hre, hdec]

theorem unlock_file_crash (C : BlockCipher) (opts : Opts) (env : Env) (pw : Bytes)
    (path : FPath) (fs : FS) (st : Stats) (content : Bytes)
    (helig : opts.suffix.isSuffixOf path = true)
    (hnoexit : opts.overwrite = false → fsExists fs (unlockDest opts path) = true →
      opts.cont = true)
    (hread : fsRead fs path = some content) (hre : env.readErr path = false)
    (hdec : aesDecrypt C pw content = .indexError) :
    (unlock_file C opts env pw path fs st).ops = []
    ∧ (unlock_file C opts env pw path fs st).flow = .crash := by
  by_cases hc : (!opts.overwrite && fsExists fs (unlockDest opts path)) = true
  · have hcont : opts.cont = true :=
      hnoexit (by simpa using (Bool.and_elim_left hc))
        (by simpa using (Bool.and_elim_right hc))
    unfold unlock_file check_existence contFlow read_file
    simp [helig, hc, hcont, hread, hre, hdec]
  · unfold unlock_file check_existence contFlow read_file
    simp [helig, hc, hread, hre, hdec]

theorem unlockDest_ne (opts : Opts) (path : FPath)
    (helig : opts.suffix.isSuffixOf path = true) (hs : 0 < opts.suffix.length) :
    unlockDest opts path ≠ path := by
  have hsuf : opts.suffix.length ≤ path.length := by
    have := List.isSuffixOf_iff_suffix.mp helig
    exact this.length_le
  intro h
  have := congrArg List.length h
  simp only [unlockDest, if_pos hs] at this
  rw [List.length_take] at this
  omega

/-! ### Lemmas: the continuation policy of the run loop -/

theorem runFiles_stop (C : BlockCipher) (opts : Opts) (env : Env) (pw : Bytes) :
    ∀ (pre : List FPath) (fs : FS) (st : Stats),
    (runFiles C opts env pw pre fs st).2.2 ≠ PFlow.ok →
    ∀ ys, runFiles C opts env pw (pre ++ ys) fs st = runFiles C opts env pw pre fs st := by
  intro pre
  induction pre with
  | nil =>
    intro fs st h ys
    simp [runFiles] at h
  | cons p rest ih =>
    intro fs st h ys
    simp only [List.cons_append, runFiles] at h ⊢
    cases hf : (process_file C opts env pw p fs st).flow with
    | ok =>
      rw [hf] at h
      dsimp only at h ⊢
      exact ih _ _ h ys
    | exit => rfl
    | crash => rfl

theorem lock_file_cont_false (C : BlockCipher) (opts : Opts) (env : Env) (pw : Bytes)
    (path : FPath) (fs : FS) (st : Stats) (hcont : opts.cont = false) :
    (lock_file C opts env pw path fs st).reports.length ≤ 1
    ∧ ((lock_file C opts env pw path fs st).reports ≠ [] →
        (lock_file C opts env pw path fs st).flow = PFlow.exit
        ∧ (∀ p, FsOp.remove p ∉ (lock_file C opts env pw path fs st).ops)
        ∧ (RKind.writeFail ∉ (lock_file C opts env pw path fs st).reports →
            (lock_file C opts env pw path fs st).ops = [])) := by
  by_cases hc : (!opts.overwrite && fsExists fs (path ++ opts.suffix)) = true
  <;> cases hr : fsRead fs path
  <;> by_cases hre : env.readErr path = true
  <;> by_cases hwe : env.writeErr (path ++ opts.suffix) = true
  <;> cases hwp : env.writePartial (path ++ opts.suffix)
  <;> simp [lock_file, check_existence, read_file, write_file, contFlow, hcont,
        hc, hr, hre, hwe, hwp]

theorem unlock_file_cont_false (C : BlockCipher) (opts : Opts) (env : Env) (pw : Bytes)
    (path : FPath) (fs : FS) (st : Stats) (hcont : opts.cont = false) :
    (unlock_file C opts env pw path fs st).reports.length ≤ 1
    ∧ ((unlock_file C opts env pw path fs st).reports ≠ [] →
        (unlock_file C opts env pw path fs st).flow = PFlow.exit
        ∧ (∀ p, FsOp.remove p ∉ (unlock_file C opts env pw path fs st).ops)
        ∧ (RKind.writeFail ∉ (unlock_file C opts env pw path fs st).reports →
            (unlock_file C opts env pw path fs st).ops = [])) := by
  by_cases hel : opts.suffix.isSuffixOf path = true
  · cases hr : fsRead fs path with
    | none =>
      by_cases hc : (!opts.overwrite && fsExists fs (unlockDest opts path)) = true
      <;> simp [unlock_file, check_existence, read_file, contFlow, hcont, hel, hc, hr]
    | some content =>
      cases hdec : aesDecrypt C pw content with
      | ok data =>
        by_cases hc : (!opts.overwrite && fsExists fs (unlockDest opts path)) = true
        <;> by_cases hre : env.readErr path = true
        <;> by_cases hwe : env.writeErr (unlockDest opts path) = true
        <;> cases hwp : env.writePartial (unlockDest opts path)
        <;> simp [unlock_file, check_existence, read_file, write_file, contFlow,
              hcont, hel, hc, hr, hre, hwe, hwp, hdec]
      | valueError =>
        by_cases hc : (!opts.overwrite && fsExists fs (unlockDest opts path)) = true
        <;> by_cases hre : env.readErr path = true
        <;> simp [unlock_file, check_existence, read_file, contFlow, hcont,
              hel, hc, hr, hre, hdec]
      | indexError =>
        by_cases hc : (!opts.overwrite && fsExists fs (unlockDest opts path)) = true
        <;> by_cases hre : env.readErr path = true
        <;> simp [unlock_file, check_existence, read_file, contFlow, hcont,
              hel, hc, hr, hre, hdec]
  · simp [unlock_file, hel]

theorem process_file_cont_false (C : BlockCipher) (opts : Opts) (env : Env) (pw : Bytes)
    (path : FPath) (fs : FS) (st : Stats) (hcont : opts.cont = false) :
    (process_file C opts env pw path fs st).reports.length ≤ 1
    ∧ ((process_file C opts env pw path fs st).reports ≠ [] →
        (process_file C opts env pw path fs st).flow = PFlow.exit
        ∧ (∀ p, FsOp.remove p ∉ (process_file C opts env pw path fs st).ops)
        ∧ (RKind.writeFail ∉ (process_file C opts env pw path fs st).reports →
            (process_file C opts env pw path fs st).ops = [])) := by
  unfold process_file
  by_cases hl : opts.lock = true
  · rw [if_pos hl]
    exact lock_file_cont_false C opts env pw path fs _ hcont
  · rw [if_neg hl]
    exact unlock_file_cont_false C opts env pw path fs _ hcont

theorem lock_file_cont_true (C : BlockCipher) (opts : Opts) (env : Env) (pw : Bytes)
    (path : FPath) (fs : FS) (st : Stats) (hcont : opts.cont = true) :
    (lock_file C opts env pw path fs st).flow ≠ PFlow.exit
    ∧ ((lock_file C opts env pw path fs st).flow = PFlow.ok →
        RKind.pathExists ∉ (lock_file C opts env pw path fs st).reports →
        (lock_file C opts env pw path fs st).reports ≠ [] →
        (∀ p, FsOp.remove p ∉ (lock_file C opts env pw path fs st).ops)
        ∧ (RKind.writeFail ∉ (lock_file C opts env pw path fs st).reports →
            (lock_file C opts env pw path fs st).ops = []))
    ∧ ((lock_file C opts env pw path fs st).flow = PFlow.crash →
        (lock_file C opts env pw path fs st).ops = []) := by
  by_cases hc : (!opts.overwrite && fsExists fs (path ++ opts.suffix)) = true
  <;> cases hr : fsRead fs path
  <;> by_cases hre : env.readErr path = true
  <;> by_cases hwe : env.writeErr (path ++ opts.suffix) = true
  <;> cases hwp : env.writePartial (path ++ opts.suffix)
  <;> simp [lock_file, check_existence, read_file, write_file, contFlow, hcont,
        hc, hr, hre, hwe, hwp]

theorem unlock_file_cont_true (C : BlockCipher) (opts : Opts) (env : Env) (pw : Bytes)
    (path : FPath) (fs : FS) (st : Stats) (hcont : opts.cont = true) :
    (unlock_file C opts env pw path fs st).flow ≠ PFlow.exit
    ∧ ((unlock_file C opts env pw path fs st).flow = PFlow.ok →
        RKind.pathExists ∉ (unlock_file C opts env pw path fs st).reports →
        (unlock_file C opts env pw path fs st).reports ≠ [] →
        (∀ p, FsOp.remove p ∉ (unlock_file C opts env pw path fs st).ops)
        ∧ (RKind.writeFail ∉ (unlock_file C opts env pw path fs st).reports →
            (unlock_file C opts env pw path fs st).ops = []))
    ∧ ((unlock_file C opts env pw path fs st).flow = PFlow.crash →
        (unlock_file C opts env pw path fs st).ops = []) := by
  by_cases hel : opts.suffix.isSuffixOf path = true
  · cases hr : fsRead fs path with
    | none =>
      by_cases hc : (!opts.overwrite && fsExists fs (unlockDest opts path)) = true
      <;> simp [unlock_file, check_existence, read_file, contFlow, hcont, hel, hc, hr]
    | some content =>
      cases hdec : aesDecrypt C pw content with
      | ok data =>
        by_cases hc : (!opts.overwrite && fsExists fs (unlockDest opts path)) = true
        <;> by_cases hre : env.readErr path = true
        <;> by_cases hwe : env.writeErr (unlockDest opts path) = true
        <;> cases hwp : env.writePartial (unlockDest opts path)
        <;> simp [unlock_file, check_existence, read_file, write_file, contFlow,
              hcont, hel, hc, hr, hre, hwe, hwp, hdec]
      | valueError =>
        by_cases hc : (!opts.overwrite && fsExists fs (unlockDest opts path)) = true
        <;> by_cases hre : env.readErr path = true
        <;> simp [unlock_file, check_existence, read_file, contFlow, hcont,
              hel, hc, hr, hre, hdec]
      | indexError =>
        by_cases hc : (!opts.overwrite && fsExists fs (unlockDest opts path)) = true
        <;> by_cases hre : env.readErr path = true
        <;> simp [unlock_file, check_existence, read_file, contFlow, hcont,
              hel, hc, hr, hre, hdec]
  · simp [unlock_file, hel]

theorem process_file_cont_true (C : BlockCipher) (opts : Opts) (env : Env) (pw : Bytes)
    (path : FPath) (fs : FS) (st : Stats) (hcont : opts.cont = true) :
    (process_file C opts env pw path fs st).flow ≠ PFlow.exit
    ∧ ((process_file C opts env pw path fs st).flow = PFlow.ok →
        RKind.pathExists ∉ (process_file C opts env pw path fs st).reports →
        (process_file C opts env pw path fs st).reports ≠ [] →
        (∀ p, FsOp.remove p ∉ (process_file C opts env pw path fs st).ops)
        ∧ (RKind.writeFail ∉ (process_file C opts env pw path fs st).reports →
            (process_file C opts env pw path fs st).ops = []))
    ∧ ((process_file C opts env pw path fs st).flow = PFlow.crash →
        (process_file C opts env pw path fs st).ops = []) := by
  unfold process_file
  by_cases hl : opts.lock = true
  · rw [if_pos hl]
    exact lock_file_cont_true C opts env pw path fs _ hcont
  · rw [if_neg hl]
    exact unlock_file_cont_true C opts env pw path fs _ hcont

/-! ### Write-then-remove trace safety -/

/-- Every `remove` in a side-effect trace removes only the source, only when
it differs from the destination, and only after a write of the destination
already appears earlier in the trace. -/
def removeSafe (dest src : FPath) (T : List FsOp) : Prop :=
  ∀ i p, T.get? i = some (FsOp.remove p) →
    p = src ∧ p ≠ dest ∧ ∃ j d, j < i ∧ T.get? j = some (FsOp.write dest d)

theorem removeSafe_nil (d s : FPath) : removeSafe d s [] := by
  intro i p h
  simp at h

theorem removeSafe_write (d s : FPath) (v : Bytes) : removeSafe d s [FsOp.write d v] := by
  intro i p h
  match i with
  | 0 => simp at h
  | n + 1 => simp at h

theorem removeSafe_write_remove (d s : FPath) (v : Bytes) (hne : s ≠ d) :
    removeSafe d s [FsOp.write d v, FsOp.remove s] := by
  intro i p h
  match i with
  | 0 => simp at h
  | 1 =>
    simp at h
    exact ⟨h.symm, h.symm ▸ hne, 0, v, by omega, by simp⟩
  | n + 2 => simp at h

theorem lock_file_ops_shape (C : BlockCipher) (opts : Opts) (env : Env) (pw : Bytes)
    (path : FPath) (fs : FS) (st : Stats) :
    (lock_file C opts env pw path fs st).ops = []
    ∨ (∃ data, (lock_file C opts env pw path fs st).ops =
        [FsOp.write (path ++ opts.suffix) data])
    ∨ ∃ data, (lock_file C opts env pw path fs st).ops =
        FsOp.write (path ++ opts.suffix) data ::
          (if path ++ opts.suffix = path then [] else [FsOp.remove path]) := by
  by_cases hc : (!opts.overwrite && fsExists fs (path ++ opts.suffix)) = true
  <;> by_cases hcont : opts.cont = true
  <;> cases hr : fsRead fs path
  <;> by_cases hre : env.readErr path = true
  <;> by_cases hwe : env.writeErr (path ++ opts.suffix) = true
  <;> cases hwp : env.writePartial (path ++ opts.suffix)
  <;> simp [lock_file, check_existence, read_file, write_file, contFlow,
        hc, hcont, hr, hre, hwe, hwp]

theorem unlock_file_ops_shape (C : BlockCipher) (opts : Opts) (env : Env) (pw : Bytes)
    (path : FPath) (fs : FS) (st : Stats) :
    (unlock_file C opts env pw path fs st).ops = []
    ∨ (∃ data, (unlock_file C opts env pw path fs st).ops =
        [FsOp.write (unlockDest opts path) data])
    ∨ ∃ data, (unlock_file C opts env pw path fs st).ops =
        FsOp.write (unlockDest opts path) data ::
          (if unlockDest opts path = path then [] else [FsOp.remove path]) := by
  by_cases hel : opts.suffix.isSuffixOf path = true
  · cases hr : fsRead fs path with
    | none =>
      by_cases hc : (!opts.overwrite && fsExists fs (unlockDest opts path)) = true
      <;> by_cases hcont : opts.cont = true
      <;> simp [unlock_file, check_existence, read_file, contFlow, hel, hc, hcont, hr]
    | some content =>
      cases hdec : aesDecrypt C pw content with
      | ok data =>
        by_cases hc : (!opts.overwrite && fsExists fs (unlockDest opts path)) = true
        <;> by_cases hcont : opts.cont = true
        <;> by_cases hre : env.readErr path = true
        <;> by_cases hwe : env.writeErr (unlockDest opts path) = true
        <;> cases hwp : env.writePartial (unlockDest opts path)
        <;> simp [unlock_file, check_existence, read_file, write_file, contFlow,
              hel, hc, hcont, hr, hre, hwe, hwp, hdec]
      | valueError =>
        by_cases hc : (!opts.overwrite && fsExists fs (unlockDest opts path)) = true
        <;> by_cases hcont : opts.cont = true
        <;> by_cases hre : env.readErr path = true
        <;> simp [unlock_file, check_existence, read_file, contFlow, hel, hc, hcont, hr, hre, hdec]
      | indexError =>
        by_cases hc : (!opts.overwrite && fsExists fs (unlockDest opts path)) = true
        <;> by_cases hcont : opts.cont = true
        <;> by_cases hre : env.readErr path = true
        <;> simp [unlock_file, check_existence, read_file, contFlow, hel, hc, hcont, hr, hre, hdec]
  · simp [unlock_file, hel]


/-! ## The claims -/

/-- Claim C3 (confirmed): for every byte sequence `p` (including the empty
sequence and sequences whose length is an exact multiple of 32) and every
32-byte key `k`, `decrypt(k, encrypt(k, p)) = p`.  The block permutation is
abstract; the hypotheses are AES's defining properties (keyed inverse on
16-byte blocks, block-length preservation, byte-valued output). -/
theorem c3_roundtrip (C : BlockCipher)
    (hInv : ∀ k b, b.length = 16 → (∀ x ∈ b, x < 256) → C.decB k (C.encB k b) = b)
    (hLen : ∀ k b, b.length = 16 → (C.encB k b).length = 16)
    (hBytes : ∀ k b, ∀ x ∈ C.encB k b, x < 256)
    (key iv p : Bytes) (_hkey : key.length = 32) (hiv : iv.length = 16)
    (hivb : ∀ x ∈ iv, x < 256) (hp : ∀ x ∈ p, x < 256) :
    aesDecryptRaw C key (aesEncryptRaw C key iv p) = DecResult.ok p :=
  decrypt_encrypt_roundtrip C hInv hLen (fun k b x hx => hBytes k b x hx) key iv p hiv hivb hp

/-- Witness for C3 at a concrete cipher instance, key, IV and plaintext. -/
theorem c3_witness :
    aesDecryptRaw shiftC (List.replicate 32 7)
      (aesEncryptRaw shiftC (List.replicate 32 7) (List.replicate 16 0) [1, 2, 3]) =
      DecResult.ok [1, 2, 3] :=
  c3_roundtrip shiftC
    (fun k b _ hb => shiftD_shiftE k b hb)
    (fun k b hb => by show (shiftE k b).length = 16; rw [shiftE_length]; exact hb)
    (fun k b x hx => shiftE_bytes k b x hx)
    (List.replicate 32 7) (List.replicate 16 0) [1, 2, 3]
    (by decide) (by decide) (by decide) (by decide)

/-- Claim C9 (confirmed): `_pad` appends exactly `p = 32 - len % 32`
repetitions of byte value `p`; at the boundaries, length 32 gets 32 bytes of
value 32 (not zero bytes), length 31 gets one byte of value 1, and length 0
gets 32 bytes of value 32.  In particular the `m_pad[0]` special entry of
`__init__` is never selected. -/
theorem c9_pad_boundaries : ∀ s : Bytes,
    aes_pad s = s ++ List.replicate (32 - s.length % 32) (32 - s.length % 32)
    ∧ 1 ≤ 32 - s.length % 32 ∧ 32 - s.length % 32 ≤ 32
    ∧ (s.length = 32 → aes_pad s = s ++ List.replicate 32 32)
    ∧ (s.length = 31 → aes_pad s = s ++ List.replicate 1 1)
    ∧ (s.length = 0 → aes_pad s = s ++ List.replicate 32 32) := by
  intro s
  refine ⟨aes_pad_eq s, by omega, by omega, fun h => ?_, fun h => ?_, fun h => ?_⟩ <;>
    rw [aes_pad_eq s, h]

/-- Witness for C9 at the three boundary lengths. -/
theorem c9_witness :
    aes_pad (List.replicate 32 5) = List.replicate 32 5 ++ List.replicate 32 32
    ∧ aes_pad (List.replicate 31 6) = List.replicate 31 6 ++ List.replicate 1 1
    ∧ aes_pad ([] : Bytes) = [] ++ List.replicate 32 32 :=
  ⟨(c9_pad_boundaries _).2.2.2.1 (by simp),
   (c9_pad_boundaries _).2.2.2.2.1 (by simp),
   (c9_pad_boundaries _).2.2.2.2.2 (by simp)⟩

/-- Claim C8 (confirmed): key normalization always yields exactly 32 bytes;
a password of 32 or more bytes is truncated to its first 32 bytes, a shorter
one is extended by the pad rule (whose result is already exactly 32 bytes,
so taking the first 32 bytes is the identity on it). -/
theorem c8_normalize_key : ∀ key : Bytes,
    (m_key key).length = 32
    ∧ (32 ≤ key.length → m_key key = key.take 32)
    ∧ (key.length < 32 → m_key key = (aes_pad key).take 32) := by
  intro key
  by_cases h : 32 ≤ key.length
  · refine ⟨?_, fun _ => by simp [m_key, h], fun h2 => absurd h2 (by omega)⟩
    simp only [m_key, if_pos h, List.length_take]
    omega
  · have hlen : (aes_pad key).length = 32 := by rw [aes_pad_length]; omega
    refine ⟨?_, fun h2 => absurd h2 (by omega), fun _ => ?_⟩
    · simp only [m_key, if_neg h]
      exact hlen
    · simp only [m_key, if_neg h]
      rw [← hlen, List.take_length]

/-- Witness for C8 on a long, a short and an empty password. -/
theorem c8_witness :
    m_key (List.replicate 40 1) = (List.replicate 40 1).take 32
    ∧ m_key [1, 2] = (aes_pad [1, 2]).take 32
    ∧ (m_key []).length = 32 :=
  ⟨(c8_normalize_key _).2.1 (by simp),
   (c8_normalize_key _).2.2 (by simp),
   (c8_normalize_key _).1⟩

/-- Claim C10 (confirmed): two passwords of length at least 32 that agree on
their first 32 bytes derive the identical internal key, hence identical
encrypt and decrypt behaviour on every plaintext and every blob — bytes past
the 32nd never influence any output. -/
theorem c10_key_truncation : ∀ (C : BlockCipher) (p1 p2 : Bytes),
    32 ≤ p1.length → 32 ≤ p2.length → p1.take 32 = p2.take 32 →
    m_key p1 = m_key p2
    ∧ (∀ iv raw, aesEncrypt C p1 iv raw = aesEncrypt C p2 iv raw)
    ∧ (∀ blob, aesDecrypt C p1 blob = aesDecrypt C p2 blob) := by
  intro C p1 p2 h1 h2 htake
  have hk : m_key p1 = m_key p2 := by
    simp only [m_key, if_pos h1, if_pos h2]
    exact htake
  exact ⟨hk, fun iv raw => by unfold aesEncrypt; rw [hk],
    fun blob => by unfold aesDecrypt; rw [hk]⟩

/-- Witness for C10: two 32+-byte passwords differing only past byte 32. -/
theorem c10_witness :
    m_key (List.replicate 32 1 ++ [5]) = m_key (List.replicate 32 1 ++ [9, 9])
    ∧ aesEncrypt shiftC (List.replicate 32 1 ++ [5]) (List.replicate 16 0) [3] =
        aesEncrypt shiftC (List.replicate 32 1 ++ [9, 9]) (List.replicate 16 0) [3]
    ∧ aesDecrypt shiftC (List.replicate 32 1 ++ [5]) [1, 2] =
        aesDecrypt shiftC (List.replicate 32 1 ++ [9, 9]) [1, 2] := by
  have h := c10_key_truncation shiftC (List.replicate 32 1 ++ [5])
    (List.replicate 32 1 ++ [9, 9]) (by simp) (by simp) (by decide)
  exact ⟨h.1, h.2.1 _ _, h.2.2 _⟩

/-- Claim C7 (corrected at `u = 0`): the claim says unpadding strips exactly
the final `u` bytes for every non-empty input.  For a plaintext ending in
byte 0 the source computes `s[:-0] = s[:0]`, the empty string: it strips
everything, not zero bytes. -/
theorem c7_counterexample : aes_unpad [0] = [] ∧ aes_unpad [0] ≠ [0] := by decide

/-- The length of the unpadded result depends only on the input's length
and last byte. -/
theorem aes_unpad_length (s : Bytes) :
    (aes_unpad s).length =
      if s.getLastD 0 = 0 then 0 else s.length - s.getLastD 0 := by
  unfold aes_unpad
  split
  · simp_all
  · simp_all [List.length_take]

/-- Claim C7 (amended): for non-empty `s` with last byte `u`, the result is
the first `len - u` bytes when `1 ≤ u` (so exactly `u` bytes are stripped
when `u ≤ len`, and everything when `u > len`), and the empty sequence when
`u = 0`; no pad-byte validation occurs — the result's length depends only on
the input's length and last byte. -/
theorem c7_amended : ∀ s : Bytes, s ≠ [] →
    (1 ≤ s.getLastD 0 →
      aes_unpad s = s.take (s.length - s.getLastD 0)
      ∧ (aes_unpad s).length = s.length - s.getLastD 0)
    ∧ (s.getLastD 0 = 0 → aes_unpad s = [])
    ∧ (s.length ≤ s.getLastD 0 → aes_unpad s = [])
    ∧ (∀ t : Bytes, t.length = s.length → t.getLastD 0 = s.getLastD 0 →
        (aes_unpad t).length = (aes_unpad s).length) := by
  intro s _
  refine ⟨fun h1 => ⟨?_, ?_⟩, fun h0 => ?_, fun h3 => ?_, fun t hlt hlast => ?_⟩
  · simp only [aes_unpad, if_neg (by omega : ¬s.getLastD 0 = 0)]
  · rw [aes_unpad_length, if_neg (by omega : ¬s.getLastD 0 = 0)]
  · simp only [aes_unpad, if_pos h0]
  · by_cases h0 : s.getLastD 0 = 0
    · simp only [aes_unpad, if_pos h0]
    · simp only [aes_unpad, if_neg h0]
      rw [Nat.sub_eq_zero_of_le h3]
      simp
  · rw [aes_unpad_length, aes_unpad_length, hlast, hlt]

/-- Witness for C7 (amended) at a concrete payload with valid pad byte. -/
theorem c7_witness :
    aes_unpad [5, 5, 2] = List.take ([5, 5, 2].length - [5, 5, 2].getLastD 0) [5, 5, 2] :=
  ((c7_amended [5, 5, 2] (by decide)).1 (by decide)).1

/-- Claim C4 (corrected): the claim says `decrypt` fails with
`DecryptionError` *exactly* when base64 fails, the decoded length is not a
positive multiple of 16 plus 16, or the pad byte is outside `[1, 32]`.
Counterexample to the third disjunct: a structurally valid blob (decoded
length 32) whose decrypted payload ends in byte 0 — pad byte `u = 0` is
outside `[1, 32]`, yet `decrypt` raises nothing and silently returns the
empty sequence. -/
theorem c4_counterexample :
    b64decode (b64encode (List.replicate 16 0 ++ (List.replicate 15 0 ++ [1]))) =
      some (List.replicate 16 0 ++ (List.replicate 15 0 ++ [1]))
    ∧ aesDecryptRaw shiftC (List.replicate 32 0)
        (b64encode (List.replicate 16 0 ++ (List.replicate 15 0 ++ [1]))) =
      DecResult.ok [] := by decide

/-- Claim C4 (amended): `decrypt` raises the caught `ValueError` exactly when
base64 decoding fails or the decoded length is below 16 or not a multiple
of 16; a decoded length of exactly 16 (empty payload) raises an uncaught
`IndexError` instead; and every other blob succeeds with the unconditionally
unpadded payload, whatever its pad byte — out-of-range pad bytes are
silently truncated, never reported. -/
theorem c4_amended (C : BlockCipher) (key enc : Bytes)
    (hDlen : ∀ k b, b.length = 16 → (C.decB k b).length = 16) :
    (aesDecryptRaw C key enc = DecResult.valueError ↔
      b64decode enc = none ∨ ∃ dec, b64decode enc = some dec ∧
        (dec.length < 16 ∨ (dec.length - 16) % 16 ≠ 0))
    ∧ (aesDecryptRaw C key enc = DecResult.indexError ↔
      ∃ dec, b64decode enc = some dec ∧ dec.length = 16)
    ∧ (∀ dec, b64decode enc = some dec → 16 < dec.length → (dec.length - 16) % 16 = 0 →
        aesDecryptRaw C key enc =
          DecResult.ok (aes_unpad (cbcDec C.decB key (dec.take 16) (dec.drop 16)))) :=
  ⟨decrypt_valueError_iff C key enc,
   decrypt_indexError_iff C key enc hDlen,
   fun dec hb h16 hmod => decrypt_ok_of_structure C key enc dec hDlen hb h16 hmod⟩

/-- Witness for C4 (amended): a structurally valid 32-byte blob decrypts
without any error. -/
theorem c4_witness :
    aesDecryptRaw shiftC (List.replicate 32 0) (b64encode (List.replicate 32 1)) =
      DecResult.ok (aes_unpad (cbcDec shiftC.decB (List.replicate 32 0)
        ((List.replicate 32 1).take 16) ((List.replicate 32 1).drop 16))) :=
  (c4_amended shiftC (List.replicate 32 0) (b64encode (List.replicate 32 1))
      (fun k b hb => by show (shiftD k b).length = 16; rw [shiftD_length]; exact hb)).2.2
    (List.replicate 32 1) (by decide) (by decide) (by decide)

/-- The unlock scenario refuting C1: the file `[7, 9]` holds a blob locked
with one 32-byte password; unlocking with a different password. -/
def c1res : PFRes :=
  unlock_file shiftC ⟨[9], false, false, false⟩ noErrEnv (100 :: List.replicate 31 0) [7, 9]
    [([7, 9], aesEncrypt shiftC (List.replicate 32 0) (List.replicate 16 0) [1])] stats0

/-- Claim C1 (corrected): the claim says a wrong key raises `DecryptionError`
in the overwhelming majority of cases and a zero-length destination is never
silently written before the source is deleted.  Counterexample: unlocking a
blob of `[1]` locked under one key with a different key reports no error at
all, writes a zero-length destination (the garbage plaintext's last byte
exceeds its length, so unpadding strips everything) and then deletes the
source. -/
theorem c1_counterexample :
    c1res.ops = [FsOp.write [7] [], FsOp.remove [7, 9]]
    ∧ c1res.reports = [] ∧ c1res.flow = PFlow.ok := by decide

/-- Claim C1 (amended): decryption failure is purely structural — any blob
that base64-decodes to more than 16 bytes in a multiple of 16 decrypts
without error under every key, so a wrong key goes undetected; and whenever
decrypt returns (garbage or not) and the write succeeds, `unlock_file`
writes the destination and then deletes the source. -/
theorem c1_amended :
    (∀ (C : BlockCipher) (key enc dec : Bytes),
      (∀ k b, b.length = 16 → (C.decB k b).length = 16) →
      b64decode enc = some dec → 16 < dec.length → (dec.length - 16) % 16 = 0 →
      aesDecryptRaw C key enc =
        DecResult.ok (aes_unpad (cbcDec C.decB key (dec.take 16) (dec.drop 16))))
    ∧ (∀ (C : BlockCipher) (opts : Opts) (env : Env) (pw : Bytes) (path : FPath)
        (fs : FS) (st : Stats) (content data : Bytes),
      opts.suffix.isSuffixOf path = true → 0 < opts.suffix.length →
      (opts.overwrite = false → fsExists fs (unlockDest opts path) = true →
        opts.cont = true) →
      fsRead fs path = some content → env.readErr path = false →
      aesDecrypt C pw content = DecResult.ok data →
      env.writeErr (unlockDest opts path) = false →
      (unlock_file C opts env pw path fs st).ops =
        [FsOp.write (unlockDest opts path) data, FsOp.remove path]
      ∧ (unlock_file C opts env pw path fs st).flow = PFlow.ok) := by
  constructor
  · intro C key enc dec hDlen hb h16 hmod
    exact decrypt_ok_of_structure C key enc dec hDlen hb h16 hmod
  · intro C opts env pw path fs st content data hel hslen hnoexit hread hre hdec hwe
    obtain ⟨hops, hflow, _⟩ :=
      unlock_file_success C opts env pw path fs st content data hel hnoexit hread hre hdec hwe
    refine ⟨?_, hflow⟩
    rw [hops, if_neg (unlockDest_ne opts path hel hslen)]

/-- Witness for C1 (amended): a successful unlock writes the stripped
destination and removes the suffixed source. -/
theorem c1_witness :
    (unlock_file shiftC ⟨[9], false, false, false⟩ noErrEnv (List.replicate 32 4) [3, 9]
        [([3, 9], aesEncrypt shiftC (List.replicate 32 4) (List.replicate 16 0) [2])]
        stats0).ops = [FsOp.write [3] [2], FsOp.remove [3, 9]]
    ∧ (unlock_file shiftC ⟨[9], false, false, false⟩ noErrEnv (List.replicate 32 4) [3, 9]
        [([3, 9], aesEncrypt shiftC (List.replicate 32 4) (List.replicate 16 0) [2])]
        stats0).flow = PFlow.ok :=
  c1_amended.2 shiftC ⟨[9], false, false, false⟩ noErrEnv (List.replicate 32 4) [3, 9]
    [([3, 9], aesEncrypt shiftC (List.replicate 32 4) (List.replicate 16 0) [2])] stats0
    (aesEncrypt shiftC (List.replicate 32 4) (List.replicate 16 0) [2]) [2]
    (by decide) (by decide) (fun _ hex => absurd hex (by decide))
    (by decide) (by decide) (by decide) (by decide)

/-- The lock scenario refuting C2: `[7]` is locked while `[7, 9]` (the
destination) already exists, with overwrite disabled and `--cont` set. -/
def c2res : PFRes :=
  lock_file shiftC ⟨[9], false, true, true⟩ noErrEnv (List.replicate 32 0) [7]
    [([7], [5]), ([7, 9], [1, 2, 3])] stats0

/-- Claim C2 (corrected): the claim says that with `overwrite = false` and an
existing destination the path is aborted without transformation, neither
file modified.  Counterexample: with `continue_on_error` set the existence
error is merely warned and the path is processed anyway — the existing
destination is replaced and the source deleted. -/
theorem c2_counterexample :
    fsExists [([7], [5]), ([7, 9], [1, 2, 3])] [7, 9] = true
    ∧ c2res.reports = [RKind.pathExists]
    ∧ c2res.flow = PFlow.ok
    ∧ c2res.ops =
        [FsOp.write [7, 9] (aesEncrypt shiftC (List.replicate 32 0) (List.replicate 16 0) [5]),
         FsOp.remove [7]]
    ∧ fsRead (applyOps [([7], [5]), ([7, 9], [1, 2, 3])] c2res.ops) [7] = none := by decide

/-- Claim C2 (amended): with `overwrite = false` and an existing destination,
`PathExistsError` is reported; if `continue_on_error` is false the whole run
exits (status 1) before any transformation, leaving both files untouched;
if it is true the path is nevertheless processed — the destination is
overwritten and a distinct source deleted.  With `overwrite = true` the
operation succeeds and replaces the destination.  Both the lock and the
unlock direction are covered. -/
theorem c2_amended :
    (∀ (C : BlockCipher) (opts : Opts) (env : Env) (pw : Bytes) (path : FPath)
        (fs : FS) (st : Stats),
      opts.overwrite = false → fsExists fs (path ++ opts.suffix) = true →
      opts.cont = false →
      lock_file C opts env pw path fs st = ⟨[], [RKind.pathExists], st, PFlow.exit⟩)
    ∧ (∀ (C : BlockCipher) (opts : Opts) (env : Env) (pw : Bytes) (path : FPath)
        (fs : FS) (st : Stats) (content : Bytes),
      opts.overwrite = false → fsExists fs (path ++ opts.suffix) = true →
      opts.cont = true → fsRead fs path = some content → env.readErr path = false →
      env.writeErr (path ++ opts.suffix) = false →
      (lock_file C opts env pw path fs st).reports = [RKind.pathExists]
      ∧ (lock_file C opts env pw path fs st).flow = PFlow.ok
      ∧ (lock_file C opts env pw path fs st).ops =
          FsOp.write (path ++ opts.suffix) (aesEncrypt C pw (env.ivOf path) content) ::
            (if path ++ opts.suffix = path then [] else [FsOp.remove path]))
    ∧ (∀ (C : BlockCipher) (opts : Opts) (env : Env) (pw : Bytes) (path : FPath)
        (fs : FS) (st : Stats) (content : Bytes),
      opts.overwrite = true → fsRead fs path = some content → env.readErr path = false →
      env.writeErr (path ++ opts.suffix) = false →
      (lock_file C opts env pw path fs st).reports = []
      ∧ (lock_file C opts env pw path fs st).flow = PFlow.ok
      ∧ (lock_file C opts env pw path fs st).ops =
          FsOp.write (path ++ opts.suffix) (aesEncrypt C pw (env.ivOf path) content) ::
            (if path ++ opts.suffix = path then [] else [FsOp.remove path]))
    ∧ (∀ (C : BlockCipher) (opts : Opts) (env : Env) (pw : Bytes) (path : FPath)
        (fs : FS) (st : Stats),
      opts.suffix.isSuffixOf path = true →
      opts.overwrite = false → fsExists fs (unlockDest opts path) = true →
      opts.cont = false →
      unlock_file C opts env pw path fs st = ⟨[], [RKind.pathExists], st, PFlow.exit⟩)
    ∧ (∀ (C : BlockCipher) (opts : Opts) (env : Env) (pw : Bytes) (path : FPath)
        (fs : FS) (st : Stats) (content data : Bytes),
      opts.suffix.isSuffixOf path = true →
      opts.overwrite = false → fsExists fs (unlockDest opts path) = true →
      opts.cont = true → fsRead fs path = some content → env.readErr path = false →
      aesDecrypt C pw content = DecResult.ok data →
      env.writeErr (unlockDest opts path) = false →
      (unlock_file C opts env pw path fs st).reports = [RKind.pathExists]
      ∧ (unlock_file C opts env pw path fs st).flow = PFlow.ok
      ∧ (unlock_file C opts env pw path fs st).ops =
          FsOp.write (unlockDest opts path) data ::
            (if unlockDest opts path = path then [] else [FsOp.remove path]))
    ∧ (∀ (C : BlockCipher) (opts : Opts) (env : Env) (pw : Bytes) (path : FPath)
        (fs : FS) (st : Stats) (content data : Bytes),
      opts.suffix.isSuffixOf path = true → opts.overwrite = true →
      fsRead fs path = some content → env.readErr path = false →
      aesDecrypt C pw content = DecResult.ok data →
      env.writeErr (unlockDest opts path) = false →
      (unlock_file C opts env pw path fs st).reports = []
      ∧ (unlock_file C opts env pw path fs st).flow = PFlow.ok
      ∧ (unlock_file C opts env pw path fs st).ops =
          FsOp.write (unlockDest opts path) data ::
            (if unlockDest opts path = path then [] else [FsOp.remove path])) := by
  refine ⟨?_, ?_, ?_, ?_, ?_, ?_⟩
  · intro C opts env pw path fs st hov hex hcont
    exact lock_file_exit C opts env pw path fs st hov hex hcont
  · intro C opts env pw path fs st content hov hex hcont hread hre hwe
    obtain ⟨hops, hflow, hrep⟩ :=
      lock_file_success C opts env pw path fs st content (fun _ _ => hcont) hread hre hwe
    refine ⟨?_, hflow, hops⟩
    rw [hrep, if_pos (by simp [hov, hex])]
  · intro C opts env pw path fs st content hov hread hre hwe
    obtain ⟨hops, hflow, hrep⟩ :=
      lock_file_success C opts env pw path fs st content
        (fun h _ => absurd hov (by simp [h])) hread hre hwe
    refine ⟨?_, hflow, hops⟩
    rw [hrep, if_neg (by simp [hov])]
  · intro C opts env pw path fs st hel hov hex hcont
    exact unlock_file_exit C opts env pw path fs st hel hov hex hcont
  · intro C opts env pw path fs st content data hel hov hex hcont hread hre hdec hwe
    obtain ⟨hops, hflow, hrep⟩ :=
      unlock_file_success C opts env pw path fs st content data hel (fun _ _ => hcont)
        hread hre hdec hwe
    refine ⟨?_, hflow, hops⟩
    rw [hrep, if_pos (by simp [hov, hex])]
  · intro C opts env pw path fs st content data hel hov hread hre hdec hwe
    obtain ⟨hops, hflow, hrep⟩ :=
      unlock_file_success C opts env pw path fs st content data hel
        (fun h _ => absurd hov (by simp [h])) hread hre hdec hwe
    refine ⟨?_, hflow, hops⟩
    rw [hrep, if_neg (by simp [hov])]

/-- Witness for C2 (amended): the fatal existence check and the
overwrite-enabled replacement, at concrete states. -/
theorem c2_witness :
    lock_file shiftC ⟨[9], false, false, true⟩ noErrEnv (List.replicate 32 0) [4]
        [([4], [1]), ([4, 9], [2])] stats0 = ⟨[], [RKind.pathExists], stats0, PFlow.exit⟩
    ∧ (lock_file shiftC ⟨[9], true, false, true⟩ noErrEnv (List.replicate 32 0) [4]
        [([4], [1]), ([4, 9], [2])] stats0).ops =
        FsOp.write ([4] ++ [9]) (aesEncrypt shiftC (List.replicate 32 0)
          (List.replicate 16 0) [1]) ::
          (if [4] ++ [9] = [4] then [] else [FsOp.remove [4]]) :=
  ⟨c2_amended.1 shiftC ⟨[9], false, false, true⟩ noErrEnv (List.replicate 32 0) [4]
      [([4], [1]), ([4, 9], [2])] stats0 rfl (by decide) rfl,
   (c2_amended.2.2.1 shiftC ⟨[9], true, false, true⟩ noErrEnv (List.replicate 32 0) [4]
      [([4], [1]), ([4, 9], [2])] stats0 [1] rfl (by decide) rfl rfl).2.2⟩

/-- Claim C5 (confirmed): in both directions the source is removed only
after the destination has been successfully written (the `remove`, when
present, follows a `write` of the destination in the side-effect trace) and
only when the two paths differ; with an empty suffix the destination equals
the source and no `remove` is ever emitted. -/
theorem c5_write_then_remove : ∀ (C : BlockCipher) (opts : Opts) (env : Env) (pw : Bytes)
    (path : FPath) (fs : FS) (st : Stats),
    removeSafe (path ++ opts.suffix) path (lock_file C opts env pw path fs st).ops
    ∧ removeSafe (unlockDest opts path) path (unlock_file C opts env pw path fs st).ops
    ∧ (opts.suffix = [] →
        (∀ op ∈ (lock_file C opts env pw path fs st).ops, ∀ p, op ≠ FsOp.remove p)
        ∧ (∀ op ∈ (unlock_file C opts env pw path fs st).ops, ∀ p, op ≠ FsOp.remove p)) := by
  intro C opts env pw path fs st
  refine ⟨?_, ?_, ?_⟩
  · rcases lock_file_ops_shape C opts env pw path fs st with h | ⟨data, h⟩ | ⟨data, h⟩
    · rw [h]; exact removeSafe_nil _ _
    · rw [h]; exact removeSafe_write _ _ _
    · rw [h]
      by_cases hout : path ++ opts.suffix = path
      · rw [if_pos hout]; exact removeSafe_write _ _ _
      · rw [if_neg hout]; exact removeSafe_write_remove _ _ _ (fun heq => hout heq.symm)
  · rcases unlock_file_ops_shape C opts env pw path fs st with h | ⟨data, h⟩ | ⟨data, h⟩
    · rw [h]; exact removeSafe_nil _ _
    · rw [h]; exact removeSafe_write _ _ _
    · rw [h]
      by_cases hout : unlockDest opts path = path
      · rw [if_pos hout]; exact removeSafe_write _ _ _
      · rw [if_neg hout]; exact removeSafe_write_remove _ _ _ (fun heq => hout heq.symm)
  · intro hsuf
    constructor
    · rcases lock_file_ops_shape C opts env pw path fs st with h | ⟨data, h⟩ | ⟨data, h⟩ <;>
        rw [h]
      · simp
      · intro op hop p
        simp at hop
        subst hop
        simp
      · have hout : path ++ opts.suffix = path := by rw [hsuf]; simp
        rw [if_pos hout]
        intro op hop p
        simp at hop
        subst hop
        simp
    · rcases unlock_file_ops_shape C opts env pw path fs st with h | ⟨data, h⟩ | ⟨data, h⟩ <;>
        rw [h]
      · simp
      · intro op hop p
        simp at hop
        subst hop
        simp
      · have hout : unlockDest opts path = path := by simp [unlockDest, hsuf]
        rw [if_pos hout]
        intro op hop p
        simp at hop
        subst hop
        simp

/-- Witness for C5 at a concrete lock invocation whose trace contains both a
write and a remove. -/
theorem c5_witness :
    removeSafe ([3] ++ [9]) [3]
      (lock_file shiftC ⟨[9], true, false, true⟩ noErrEnv (List.replicate 32 0) [3]
        [([3], [8])] stats0).ops :=
  (c5_write_then_remove shiftC ⟨[9], true, false, true⟩ noErrEnv (List.replicate 32 0) [3]
    [([3], [8])] stats0).1

/-- The run refuting C6: with `--cont`, the first file's blob decodes to
exactly 16 bytes, so `_unpad` hits an uncaught `IndexError`. -/
def fs6 : FS :=
  [([1, 9], b64encode (List.replicate 16 0)),
   ([2, 9], aesEncrypt shiftC (List.replicate 32 0) (List.replicate 16 0) [4, 4])]

/-- An environment for the write-failure half of the C6 counterexample:
`open([5, 9], 'wb')` succeeds — truncating the destination — and the write
itself then fails after 0 bytes (disk full). -/
def partialEnv : Env :=
  ⟨fun _ => false, fun p => p == [5, 9],
   fun p => if p == [5, 9] then some 0 else none,
   fun _ => List.replicate 16 0⟩

/-- Claim C6 (corrected): the claim says that with `continue_on_error` every
per-file error is reported as a warning, processing continues with the next
file, and the failing file is left unmodified (no partial or corrupt
destination).  Two counterexamples in one run model.  First, a corrupt blob
whose payload is empty raises an `IndexError` that no handler catches — the
whole run dies (non-zero status, nothing reported through the warning
channel) and the second, perfectly unlockable file is never touched.
Second, a mid-write `IOError` while locking `[5]` is reported as a warning
and the run continues, but `open('wb')` has already truncated the
destination: a zero-length `[5, 9]` is left behind — a corrupt destination —
even though the source survives. -/
theorem c6_counterexample :
    (runFiles shiftC ⟨[9], false, true, false⟩ noErrEnv (List.replicate 32 0)
        [[1, 9], [2, 9]] fs6 stats0).2.2 = PFlow.crash
    ∧ (runFiles shiftC ⟨[9], false, true, false⟩ noErrEnv (List.replicate 32 0)
        [[1, 9], [2, 9]] fs6 stats0).1 = fs6
    ∧ (process_file shiftC ⟨[9], false, true, true⟩ partialEnv (List.replicate 32 0) [5]
        [([5], [3])] stats0).reports = [RKind.writeFail]
    ∧ (process_file shiftC ⟨[9], false, true, true⟩ partialEnv (List.replicate 32 0) [5]
        [([5], [3])] stats0).flow = PFlow.ok
    ∧ fsRead (applyOps [([5], [3])]
        (process_file shiftC ⟨[9], false, true, true⟩ partialEnv (List.replicate 32 0) [5]
          [([5], [3])] stats0).ops) [5, 9] = some []
    ∧ fsRead (applyOps [([5], [3])]
        (process_file shiftC ⟨[9], false, true, true⟩ partialEnv (List.replicate 32 0) [5]
          [([5], [3])] stats0).ops) [5] = some [3] := by decide

/-- Claim C6 (amended): (1) once a file ends the run (exit or crash) the
remaining files are never touched — with `continue_on_error` false the first
reported error does exactly that, with status 1 and at most one report.
(2) In either mode the failing file's source is never deleted, and only a
write failure can leave any side effect: `open(dest, 'wb')` truncates before
the write can fail, so a reported write failure may leave a zero-length or
partially-written destination, while every other reported error leaves the
file system untouched.  (3) With `continue_on_error` true no reported error
exits — reported errors behave as in (2) except the destination-exists
warning, after which the file is processed anyway — but the uncaught
`IndexError` of an empty-payload blob still kills the whole run with
nothing written. -/
theorem c6_amended :
    (∀ (C : BlockCipher) (opts : Opts) (env : Env) (pw : Bytes) (pre : List FPath)
        (fs : FS) (st : Stats),
      (runFiles C opts env pw pre fs st).2.2 ≠ PFlow.ok →
      ∀ ys, runFiles C opts env pw (pre ++ ys) fs st = runFiles C opts env pw pre fs st)
    ∧ (∀ (C : BlockCipher) (opts : Opts) (env : Env) (pw : Bytes) (path : FPath)
        (fs : FS) (st : Stats), opts.cont = false →
      (process_file C opts env pw path fs st).reports.length ≤ 1
      ∧ ((process_file C opts env pw path fs st).reports ≠ [] →
          (process_file C opts env pw path fs st).flow = PFlow.exit
          ∧ (∀ p, FsOp.remove p ∉ (process_file C opts env pw path fs st).ops)
          ∧ (RKind.writeFail ∉ (process_file C opts env pw path fs st).reports →
              (process_file C opts env pw path fs st).ops = [])))
    ∧ (∀ (C : BlockCipher) (opts : Opts) (env : Env) (pw : Bytes) (path : FPath)
        (fs : FS) (st : Stats), opts.cont = true →
      (process_file C opts env pw path fs st).flow ≠ PFlow.exit
      ∧ ((process_file C opts env pw path fs st).flow = PFlow.ok →
          RKind.pathExists ∉ (process_file C opts env pw path fs st).reports →
          (process_file C opts env pw path fs st).reports ≠ [] →
          (∀ p, FsOp.remove p ∉ (process_file C opts env pw path fs st).ops)
          ∧ (RKind.writeFail ∉ (process_file C opts env pw path fs st).reports →
              (process_file C opts env pw path fs st).ops = []))
      ∧ ((process_file C opts env pw path fs st).flow = PFlow.crash →
          (process_file C opts env pw path fs st).ops = [])) :=
  ⟨fun C opts env pw pre fs st h ys => runFiles_stop C opts env pw pre fs st h ys,
   fun C opts env pw path fs st hcont => process_file_cont_false C opts env pw path fs st hcont,
   fun C opts env pw path fs st hcont => process_file_cont_true C opts env pw path fs st hcont⟩

/-- Witness for C6 (amended): the crashing run above stops where it crashed
(appending the second file changes nothing), and with `--cont` unset a
destination-exists error exits at once. -/
theorem c6_witness :
    runFiles shiftC ⟨[9], false, true, false⟩ noErrEnv (List.replicate 32 0)
        ([[1, 9]] ++ [[2, 9]]) fs6 stats0 =
      runFiles shiftC ⟨[9], false, true, false⟩ noErrEnv (List.replicate 32 0)
        [[1, 9]] fs6 stats0
    ∧ (process_file shiftC ⟨[9], false, false, true⟩ noErrEnv (List.replicate 32 0) [6]
        [([6], [1]), ([6, 9], [2])] stats0).flow = PFlow.exit :=
  ⟨c6_amended.1 shiftC ⟨[9], false, true, false⟩ noErrEnv (List.replicate 32 0)
      [[1, 9]] fs6 stats0 (by decide) [[2, 9]],
   ((c6_amended.2.1 shiftC ⟨[9], false, false, true⟩ noErrEnv (List.replicate 32 0) [6]
      [([6], [1]), ([6, 9], [2])] stats0 rfl).2 (by decide)).1⟩
